import Mathlib

/-
  Verification of the sync / import core of the quote-generator repository
  (final revision of src/dom-manipulation/script.js).

  The embedding models:
  - the Quote record (id, text, category, synced);
  - fetchServerQuotes, mapping mock server posts to quotes and signalling
    failure by an empty list plus a failure status flag;
  - syncQuotes, the reconcile merge built on a JS Map keyed by quote id
    (insertion order preserved, later duplicate keys overwrite the value
    in place), with server precedence and the simulated push that marks
    surviving unsynced local quotes as synced;
  - addQuote, importFromJsonFile and generateUniqueId.

  Environment-dependent values (Date.now(), Math.random(), the network
  response, the parsed file content) are passed as explicit parameters.
-/

namespace QuoteApp

/-- A quote record as used by the final revision of script.js:
fields id, text, category, synced. -/
structure Quote where
  id : String
  text : String
  category : String
  synced : Bool
deriving Repr, DecidableEq

/-- A mock server post as returned by the JSONPlaceholder endpoint:
fields id, title, userId. -/
structure Post where
  id : Nat
  title : String
  userId : Nat
deriving Repr, DecidableEq

/-- The ids of a list of quotes, in order. -/
def ids (qs : List Quote) : List String := qs.map Quote.id

/-- Mapping of one mock server post to the local quote structure, as in
fetchServerQuotes: id gets the prefix so as not to collide with local
default ids, text is the post title, category is derived from userId,
and synced is always true for server data. -/
def mapServerPost (post : Post) : Quote :=
  { id := "server-" ++ toString post.id
  , text := post.title
  , category := "Server-" ++ toString post.userId
  , synced := true }

/-- fetchServerQuotes: on a successful HTTP response the posts are mapped
to quotes (second component true = no failure status was shown); on a
network error or non-ok status the catch branch sets the failure status
('Sync Failed!') and returns the empty list (second component false).
The response is passed explicitly: none models the error case. -/
def fetchServerQuotes : Option (List Post) → List Quote × Bool
  | some serverPosts => (serverPosts.map mapServerPost, true)
  | none => ([], false)

/-- The local-quotes map of syncQuotes: a JS Map from id to quote,
modelled as an insertion-ordered association list with unique keys. -/
abbrev QMap := List (String × Quote)

/-- JS Map.set semantics: an existing key keeps its position and gets the
new value; a fresh key is appended at the end. -/
def mapSet : QMap → String → Quote → QMap
  | [], k, v => [(k, v)]
  | e :: rest, k, v => if e.1 = k then (k, v) :: rest else e :: mapSet rest k v

/-- JS Map.get semantics: the value stored at the key, if any. -/
def mapGet : QMap → String → Option Quote
  | [], _ => none
  | e :: rest, k => if e.1 = k then some e.2 else mapGet rest k

/-- JS Map.delete semantics: remove the entry with the given key. -/
def mapDelete : QMap → String → QMap
  | [], _ => []
  | e :: rest, k => if e.1 = k then rest else e :: mapDelete rest k

/-- new Map(quotes.map(q => [q.id, q])): fold Map.set over the quotes. -/
def buildLocalMap (quotes : List Quote) : QMap :=
  quotes.foldl (fun m q => mapSet m q.id q) []

/-- Step 1 of the syncQuotes merge: every server quote is pushed to the
output (server precedence); when a local quote shares the id, the map
entry is deleted so the local copy is discarded. Returns the merged
server part and the map of remaining local quotes. -/
def mergeServerQuotes : List Quote → QMap → List Quote × QMap
  | [], localQuotesMap => ([], localQuotesMap)
  | sQuote :: rest, localQuotesMap =>
    match mapGet localQuotesMap sQuote.id with
    | some _ =>
      let next := mergeServerQuotes rest (mapDelete localQuotesMap sQuote.id)
      (sQuote :: next.1, next.2)
    | none =>
      let next := mergeServerQuotes rest localQuotesMap
      (sQuote :: next.1, next.2)

/-- Step 2 of the syncQuotes merge: the remaining local quotes are pushed
in map (insertion) order; an unsynced one is marked synced = true
('Simulate successful server post'). -/
def markSyncedAll : QMap → List Quote
  | [] => []
  | entry :: rest =>
    (if !entry.2.synced then { entry.2 with synced := true } else entry.2)
      :: markSyncedAll rest

/-- The pure merge of syncQuotes: build the local map, run the server
precedence pass, then append the surviving local quotes with the
simulated-push marking. -/
def syncMerge (localQuotes serverQuotes : List Quote) : List Quote :=
  let localQuotesMap := buildLocalMap localQuotes
  let merged := mergeServerQuotes serverQuotes localQuotesMap
  merged.1 ++ markSyncedAll merged.2

/-- syncQuotes: fetch (with the explicit response), merge, and return the
new collection together with the fetch status flag (false = the failure
status 'Sync Failed!' was surfaced). The function is total: no exception
escapes the sync boundary. -/
def syncQuotes (localQuotes : List Quote) (resp : Option (List Post)) :
    List Quote × Bool :=
  let fetched := fetchServerQuotes resp
  (syncMerge localQuotes fetched.1, fetched.2)

/-- The base-36 digit characters used by Number.prototype.toString(36):
0-9 then a-z. -/
def base36Digit (d : Nat) : Char :=
  if d < 10 then Char.ofNat (48 + d) else Char.ofNat (87 + d)

/-- Fuel-driven base-36 digit accumulation; fuel n + 1 suffices for n. -/
def toBase36Core : Nat → Nat → List Char → List Char
  | 0, _, acc => acc
  | fuel + 1, n, acc =>
    if n / 36 = 0 then base36Digit (n % 36) :: acc
    else toBase36Core fuel (n / 36) (base36Digit (n % 36) :: acc)

/-- Number.prototype.toString(36) for a natural number (Date.now() is a
nonnegative integer). -/
def toBase36 (n : Nat) : String := String.mk (toBase36Core (n + 1) n [])

/-- generateUniqueId: Date.now().toString(36) concatenated with the
base-36 fractional digits of Math.random() (its toString(36).substring(2)).
The clock value and the random digit string are explicit inputs. -/
def generateUniqueId (now : Nat) (rand : String) : String :=
  toBase36 now ++ rand

/-- String.prototype.trim on the input field values: strip leading and
trailing whitespace characters. -/
def trimValue (s : String) : String :=
  String.mk (((s.data.dropWhile Char.isWhitespace).reverse.dropWhile
    Char.isWhitespace).reverse)

/-- addQuote: trim both inputs; if either is empty, report and do not
mutate; otherwise append a new quote with a generated id and
synced = false. The generated id is passed explicitly. -/
def addQuote (quotes : List Quote) (textInput categoryInput genId : String) :
    List Quote :=
  let text := trimValue textInput
  let category := trimValue categoryInput
  if text ≠ "" ∧ category ≠ "" then
    quotes ++ [{ id := genId, text := text, category := category, synced := false }]
  else quotes

/-- A record of the parsed import file: text and category, with the id
field optional (absent or possibly empty, both falsy in the source's
q.id || generateUniqueId()). -/
structure RawQuote where
  id : Option String
  text : String
  category : String
deriving Repr, DecidableEq

/-- The outcome of JSON.parse on the imported file: a parse error (the
catch branch), a parsed value that is not an array, or an array of
records. -/
inductive ImportData where
  | parseError : ImportData
  | notArray : ImportData
  | array : List RawQuote → ImportData
deriving Repr, DecidableEq

/-- The per-record normalisation of importFromJsonFile: keep the given id
unless it is absent or empty (falsy), in which case use the generated
one; mark the record synced = false. -/
def importQuote (gen : String) (q : RawQuote) : Quote :=
  { id := match q.id with
          | some s => if s = "" then gen else s
          | none => gen
  , text := q.text
  , category := q.category
  , synced := false }

/-- The new quotes produced by an import: each record normalised, the
i-th generateUniqueId() draw being gen i. -/
def importNewQuotes (importedQuotes : List RawQuote) (gen : Nat → String) :
    List Quote :=
  importedQuotes.enum.map (fun e => importQuote (gen e.1) e.2)

/-- importFromJsonFile on the in-memory collection: a parse error or a
non-array value leaves the collection untouched (reported via console);
an array is normalised and appended. -/
def importFromJsonFile (quotes : List Quote) (data : ImportData)
    (gen : Nat → String) : List Quote :=
  match data with
  | ImportData.parseError => quotes
  | ImportData.notArray => quotes
  | ImportData.array importedQuotes => quotes ++ importNewQuotes importedQuotes gen

/-- The state visible to the import path: the in-memory collection and
the collection persisted in localStorage under the 'quotes' key (none =
nothing stored yet), stored in parsed form. -/
structure AppState where
  quotes : List Quote
  storedQuotes : Option (List Quote)
deriving Repr, DecidableEq

/-- saveQuotes: persist the current in-memory collection. -/
def saveQuotes (st : AppState) : AppState :=
  { st with storedQuotes := some st.quotes }

/-- importFromJsonFile including its persistence effect: only the array
branch mutates the collection and calls saveQuotes; the other branches
report (console.warn / console.error) and return, so the boolean result
(false = failure reported, not raised) is the only signal. -/
def importFromJsonFileApp (st : AppState) (data : ImportData)
    (gen : Nat → String) : AppState × Bool :=
  match data with
  | ImportData.parseError => (st, false)
  | ImportData.notArray => (st, false)
  | ImportData.array importedQuotes =>
    let newQuotes := importNewQuotes importedQuotes gen
    (saveQuotes { st with quotes := st.quotes ++ newQuotes }, true)

/-- Keys of the association-list map, in order. -/
def keys (m : QMap) : List String := m.map Prod.fst

/-- Values of the association-list map, in order. -/
def values (m : QMap) : List Quote := m.map Prod.snd

/-- The key-value pair a quote contributes to the local map. -/
def pairId (q : Quote) : String × Quote := (q.id, q)

/-- The simulated-push marking syncQuotes applies to one surviving local
quote: an unsynced quote is marked synced = true, others are untouched. -/
def markQuote (q : Quote) : Quote :=
  if !q.synced then { q with synced := true } else q

/-- The map left after the server-precedence pass: Map.delete folded over
the ids of the fetched server quotes. -/
def deleteIds (serverQuotes : List Quote) (m : QMap) : QMap :=
  serverQuotes.foldl (fun acc s => mapDelete acc s.id) m

/-- One user-level mutating operation on the collection: a manual add
(trimmed inputs plus the generated id), a bulk import (parsed data plus
the generated-id draws), or a sync cycle (with its network response). -/
inductive Op where
  | add : String → String → String → Op
  | importOp : ImportData → (Nat → String) → Op
  | sync : Option (List Post) → Op

/-- Apply one operation to the in-memory collection. -/
def applyOp (quotes : List Quote) : Op → List Quote
  | Op.add textInput categoryInput genId => addQuote quotes textInput categoryInput genId
  | Op.importOp data gen => importFromJsonFile quotes data gen
  | Op.sync resp => (syncQuotes quotes resp).1

/-- Executable pairwise-distinctness check on id lists. -/
def allDistinct : List String → Bool
  | [] => true
  | x :: xs => !xs.contains x && allDistinct xs

/-- Well-formedness of one operation against the current collection: the
generated id of an add is fresh; the ids of an imported batch are
pairwise distinct and fresh; the ids of a fetched server batch are
pairwise distinct. -/
def opOk (quotes : List Quote) : Op → Bool
  | Op.add _ _ genId => !(ids quotes).contains genId
  | Op.importOp data gen =>
    match data with
    | ImportData.array importedQuotes =>
      let newIds := ids (importNewQuotes importedQuotes gen)
      allDistinct newIds && newIds.all (fun i => !(ids quotes).contains i)
    | _ => true
  | Op.sync resp => allDistinct (ids (fetchServerQuotes resp).1)

/-- Well-formedness of a whole trace of operations, each checked against
the collection it is applied to. -/
def okTrace (quotes : List Quote) : List Op → Bool
  | [] => true
  | op :: ops => opOk quotes op && okTrace (applyOp quotes op) ops

theorem contains_true_iff (l : List String) (x : String) :
    l.contains x = true ↔ x ∈ l := by
  simp [List.contains, List.elem_iff]

theorem not_contains_iff (l : List String) (x : String) :
    (!l.contains x) = true ↔ x ∉ l := by
  simp [List.contains, List.elem_iff]

theorem allDistinct_iff (l : List String) : allDistinct l = true ↔ l.Nodup := by
  induction l with
  | nil => simp [allDistinct]
  | cons x xs ih => simp [allDistinct, not_contains_iff, ih, List.nodup_cons]

theorem markQuote_eq (q : Quote) : markQuote q = { q with synced := true } := by
  cases q with
  | mk id text category synced => cases synced <;> rfl

theorem markQuote_synced (q : Quote) : (markQuote q).synced = true := by
  rw [markQuote_eq]

theorem markQuote_id (q : Quote) : (markQuote q).id = q.id := by
  rw [markQuote_eq]

theorem markQuote_of_synced (q : Quote) (h : q.synced = true) : markQuote q = q := by
  cases q with
  | mk id text category synced =>
    cases synced
    · simp at h
    · rfl

theorem markQuote_idem (q : Quote) : markQuote (markQuote q) = markQuote q :=
  markQuote_of_synced _ (markQuote_synced q)

theorem markSyncedAll_eq (m : QMap) : markSyncedAll m = (values m).map markQuote := by
  induction m with
  | nil => rfl
  | cons e rest ih => simp [markSyncedAll, values, markQuote, ih]

theorem keys_nil : keys [] = [] := rfl

theorem keys_cons (e : String × Quote) (m : QMap) :
    keys (e :: m) = e.1 :: keys m := rfl

theorem keys_append (a b : QMap) : keys (a ++ b) = keys a ++ keys b := by
  simp [keys]

theorem mapGet_eq_none (m : QMap) (k : String) :
    mapGet m k = none ↔ k ∉ keys m := by
  induction m with
  | nil => simp [mapGet, keys_nil]
  | cons e rest ih =>
    by_cases h : e.1 = k
    · subst h
      simp [mapGet, keys_cons]
    · simp [mapGet, h, keys_cons, ih, Ne.symm h]

theorem mapDelete_of_not_mem (m : QMap) (k : String) (h : k ∉ keys m) :
    mapDelete m k = m := by
  induction m with
  | nil => rfl
  | cons e rest ih =>
    rw [keys_cons] at h
    simp only [List.mem_cons, not_or] at h
    simp [mapDelete, Ne.symm h.1, ih h.2]

theorem mapSet_fresh (m : QMap) (k : String) (v : Quote) (h : k ∉ keys m) :
    mapSet m k v = m ++ [(k, v)] := by
  induction m with
  | nil => rfl
  | cons e rest ih =>
    rw [keys_cons] at h
    simp only [List.mem_cons, not_or] at h
    simp [mapSet, Ne.symm h.1, ih h.2]

theorem keys_mapSet_of_mem (m : QMap) (k : String) (v : Quote) (h : k ∈ keys m) :
    keys (mapSet m k v) = keys m := by
  induction m with
  | nil => simp [keys_nil] at h
  | cons e rest ih =>
    by_cases he : e.1 = k
    · simp [mapSet, he, keys_cons]
    · rw [keys_cons] at h
      rcases List.mem_cons.mp h with h1 | h1
      · exact absurd h1 (fun hh => he hh.symm)
      · simp [mapSet, he, keys_cons, ih h1]

theorem keys_nodup_mapSet (m : QMap) (k : String) (v : Quote)
    (h : (keys m).Nodup) : (keys (mapSet m k v)).Nodup := by
  by_cases hk : k ∈ keys m
  · rw [keys_mapSet_of_mem m k v hk]; exact h
  · rw [mapSet_fresh m k v hk, keys_append, keys_cons, keys_nil]
    simp [List.nodup_append, h, hk]

theorem nodup_keys_buildLocalMap (L : List Quote) :
    (keys (buildLocalMap L)).Nodup := by
  have h : ∀ m : QMap, (keys m).Nodup →
      (keys (L.foldl (fun m q => mapSet m q.id q) m)).Nodup := by
    induction L with
    | nil => intro m hm; exact hm
    | cons q L ih => intro m hm; exact ih _ (keys_nodup_mapSet m q.id q hm)
  simpa [buildLocalMap] using h [] (by simp [keys_nil])

theorem mem_mapSet (m : QMap) (k : String) (v : Quote) (e : String × Quote)
    (h : e ∈ mapSet m k v) : e ∈ m ∨ e = (k, v) := by
  induction m with
  | nil => simp [mapSet] at h; simp [h]
  | cons a rest ih =>
    by_cases ha : a.1 = k
    · simp [mapSet, ha] at h
      rcases h with h | h
      · right; simp [h]
      · left; simp [h]
    · simp [mapSet, ha] at h
      rcases h with h | h
      · left; simp [h]
      · rcases ih h with h' | h'
        · left; simp [h']
        · right; exact h'

theorem mem_buildLocalMap (L : List Quote) (e : String × Quote)
    (h : e ∈ buildLocalMap L) : ∃ q, q ∈ L ∧ e = (q.id, q) := by
  have haux : ∀ (L : List Quote) (m : QMap) (e : String × Quote),
      e ∈ L.foldl (fun m q => mapSet m q.id q) m →
      e ∈ m ∨ ∃ q, q ∈ L ∧ e = (q.id, q) := by
    intro L
    induction L with
    | nil => intro m e h; exact Or.inl h
    | cons a L ih =>
      intro m e h
      rcases ih (mapSet m a.id a) e h with h' | h'
      · rcases mem_mapSet m a.id a e h' with h'' | h''
        · exact Or.inl h''
        · exact Or.inr ⟨a, by simp, h''⟩
      · rcases h' with ⟨q, hq, he⟩
        exact Or.inr ⟨q, by simp [hq], he⟩
  rcases haux L [] e (by simpa [buildLocalMap] using h) with h' | h'
  · simp at h'
  · exact h'

theorem buildLocalMap_entry (L : List Quote) (e : String × Quote)
    (h : e ∈ buildLocalMap L) : e.1 = e.2.id ∧ e.2 ∈ L := by
  rcases mem_buildLocalMap L e h with ⟨q, hq, rfl⟩
  exact ⟨rfl, hq⟩

theorem keys_buildLocalMap_subset (L : List Quote) (k : String)
    (h : k ∈ keys (buildLocalMap L)) : k ∈ ids L := by
  rcases List.mem_map.mp h with ⟨e, he, rfl⟩
  rcases buildLocalMap_entry L e he with ⟨h1, h2⟩
  rw [h1]
  exact List.mem_map.mpr ⟨e.2, h2, rfl⟩

theorem foldl_mapSet_fresh (L : List Quote) (m : QMap)
    (hfresh : ∀ q ∈ L, q.id ∉ keys m) (hnodup : (ids L).Nodup) :
    L.foldl (fun m q => mapSet m q.id q) m = m ++ L.map pairId := by
  induction L generalizing m with
  | nil => simp
  | cons a L ih =>
    rw [List.foldl_cons, mapSet_fresh m a.id a (hfresh a (by simp))]
    rw [ids, List.map_cons, List.nodup_cons] at hnodup
    rw [ih (m ++ [(a.id, a)]) ?fresh hnodup.2]
    · simp [pairId]
    case fresh =>
      intro q hq
      rw [keys_append, keys_cons, keys_nil]
      simp only [List.mem_append, List.mem_cons, not_or]
      refine ⟨hfresh q (by simp [hq]), ?_, by simp⟩
      intro hqa
      exact hnodup.1 (hqa ▸ List.mem_map.mpr ⟨q, hq, rfl⟩)

theorem buildLocalMap_of_nodup (L : List Quote) (h : (ids L).Nodup) :
    buildLocalMap L = L.map pairId := by
  simpa [buildLocalMap] using foldl_mapSet_fresh L [] (by simp [keys_nil]) h

theorem deleteIds_cons (s : Quote) (S : List Quote) (m : QMap) :
    deleteIds (s :: S) m = deleteIds S (mapDelete m s.id) := rfl

theorem mergeServerQuotes_eq (S : List Quote) (m : QMap) :
    mergeServerQuotes S m = (S, deleteIds S m) := by
  induction S generalizing m with
  | nil => rfl
  | cons s S ih =>
    cases hg : mapGet m s.id with
    | none =>
      have hdel : mapDelete m s.id = m :=
        mapDelete_of_not_mem m s.id ((mapGet_eq_none m s.id).mp hg)
      simp [mergeServerQuotes, hg, ih, deleteIds_cons, hdel]
    | some v =>
      simp [mergeServerQuotes, hg, ih, deleteIds_cons]

theorem mapDelete_pairs (L : List Quote) (k : String) (h : (ids L).Nodup) :
    mapDelete (L.map pairId) k = (L.filter (fun q => !(q.id == k))).map pairId := by
  induction L with
  | nil => rfl
  | cons a L ih =>
    rw [ids, List.map_cons, List.nodup_cons] at h
    by_cases hk : a.id = k
    · subst hk
      have htail : L.filter (fun q => !(q.id == a.id)) = L := by
        rw [List.filter_eq_self]
        intro q hq
        have hne : q.id ≠ a.id := fun he => h.1 (he ▸ List.mem_map.mpr ⟨q, hq, rfl⟩)
        simp [hne]
      simp [mapDelete, pairId, List.filter_cons, htail]
    · simp [mapDelete, pairId, hk, List.filter_cons, ih h.2]

theorem ids_cons (a : Quote) (L : List Quote) : ids (a :: L) = a.id :: ids L := rfl

theorem ids_nil : ids [] = [] := rfl

theorem ids_append (a b : List Quote) : ids (a ++ b) = ids a ++ ids b := by
  simp [ids]

theorem ids_filter_nodup (L : List Quote) (p : Quote → Bool) (h : (ids L).Nodup) :
    (ids (L.filter p)).Nodup :=
  List.Nodup.sublist (List.Sublist.map Quote.id (List.filter_sublist L)) h

theorem deleteIds_pairs (S : List Quote) (L : List Quote) (h : (ids L).Nodup) :
    deleteIds S (L.map pairId) =
      (L.filter (fun q => !((ids S).contains q.id))).map pairId := by
  induction S generalizing L with
  | nil =>
    have hfull : L.filter (fun q => !((ids ([] : List Quote)).contains q.id)) = L := by
      rw [List.filter_eq_self]
      intro a _
      rfl
    rw [hfull]
    rfl
  | cons s S ih =>
    rw [deleteIds_cons, mapDelete_pairs L s.id h,
        ih (L.filter fun q => !(q.id == s.id)) (ids_filter_nodup L _ h),
        List.filter_filter]
    apply congrArg (List.map pairId)
    apply List.filter_congr
    intro q _
    rw [ids_cons]
    have hcontains : (s.id :: ids S).contains q.id =
        ((q.id == s.id) || (ids S).contains q.id) := by
      cases hqs : q.id == s.id
      · simp [List.contains, List.elem, hqs]
      · simp [List.contains, List.elem, hqs]
    rw [hcontains, Bool.not_or, Bool.and_comm]

theorem values_map_pairId (L : List Quote) : values (L.map pairId) = L := by
  simp only [values, List.map_map]
  have hcong : ∀ a ∈ L, (Prod.snd ∘ pairId) a = id a := fun a _ => rfl
  rw [List.map_congr_left hcong, List.map_id]

theorem ids_values_eq_keys (m : QMap) (h : ∀ e ∈ m, e.1 = e.2.id) :
    ids (values m) = keys m := by
  simp only [ids, values, keys, List.map_map]
  exact List.map_congr_left (fun e he => by simpa using (h e he).symm)

theorem map_pairId_values (m : QMap) (h : ∀ e ∈ m, e.1 = e.2.id) :
    (values m).map pairId = m := by
  simp only [values, List.map_map]
  have hcong : ∀ e ∈ m, (pairId ∘ Prod.snd) e = id e := by
    intro e he
    show (e.2.id, e.2) = e
    rw [← h e he]
  rw [List.map_congr_left hcong, List.map_id]

theorem buildLocalMap_values (m : QMap) (h1 : (keys m).Nodup)
    (h2 : ∀ e ∈ m, e.1 = e.2.id) : buildLocalMap (values m) = m := by
  rw [buildLocalMap_of_nodup (values m) (by rw [ids_values_eq_keys m h2]; exact h1)]
  exact map_pairId_values m h2

theorem entry_buildLocalMap (L : List Quote) :
    ∀ e ∈ buildLocalMap L, e.1 = e.2.id :=
  fun e he => (buildLocalMap_entry L e he).1

theorem syncMerge_values (L S : List Quote) :
    syncMerge L S = syncMerge (values (buildLocalMap L)) S := by
  unfold syncMerge
  rw [buildLocalMap_values (buildLocalMap L) (nodup_keys_buildLocalMap L)
      (entry_buildLocalMap L)]

theorem ids_values_buildLocalMap_nodup (L : List Quote) :
    (ids (values (buildLocalMap L))).Nodup := by
  rw [ids_values_eq_keys _ (entry_buildLocalMap L)]
  exact nodup_keys_buildLocalMap L

theorem syncMerge_nodup (L S : List Quote) (h : (ids L).Nodup) :
    syncMerge L S =
      S ++ (L.filter (fun q => !((ids S).contains q.id))).map markQuote := by
  simp only [syncMerge]
  rw [buildLocalMap_of_nodup L h, mergeServerQuotes_eq]
  rw [deleteIds_pairs S L h, markSyncedAll_eq, values_map_pairId]

theorem syncMerge_eq_general (L S : List Quote) :
    syncMerge L S = S ++
      ((values (buildLocalMap L)).filter
        (fun q => !((ids S).contains q.id))).map markQuote := by
  rw [syncMerge_values L S, syncMerge_nodup _ S (ids_values_buildLocalMap_nodup L)]

theorem mem_ids (L : List Quote) (q : Quote) (h : q ∈ L) : q.id ∈ ids L :=
  List.mem_map.mpr ⟨q, h, rfl⟩

theorem ids_map_markQuote (L : List Quote) : ids (L.map markQuote) = ids L := by
  simp only [ids, List.map_map]
  exact List.map_congr_left (fun q _ => markQuote_id q)

theorem values_append (a b : QMap) : values (a ++ b) = values a ++ values b := by
  simp [values]

theorem buildLocalMap_append_fresh (S T : List Quote)
    (hT : (ids T).Nodup) (hdisj : ∀ t ∈ T, t.id ∉ ids S) :
    buildLocalMap (S ++ T) = buildLocalMap S ++ T.map pairId := by
  unfold buildLocalMap
  rw [List.foldl_append]
  exact foldl_mapSet_fresh T _
    (fun t ht hk => hdisj t ht (keys_buildLocalMap_subset S t.id hk)) hT

theorem syncMerge_idem (L S : List Quote) :
    syncMerge (syncMerge L S) S = syncMerge L S := by
  have hmain := syncMerge_eq_general L S
  set Lc := values (buildLocalMap L) with hLc
  set T := (Lc.filter (fun q => !((ids S).contains q.id))).map markQuote with hTdef
  have hTid : ∀ t ∈ T, t.id ∉ ids S := by
    intro t ht
    rcases List.mem_map.mp ht with ⟨q, hq, rfl⟩
    rw [markQuote_id]
    exact (not_contains_iff _ _).mp (List.mem_filter.mp hq).2
  have hTnodup : (ids T).Nodup := by
    rw [hTdef, ids_map_markQuote]
    exact ids_filter_nodup Lc _ (ids_values_buildLocalMap_nodup L)
  rw [hmain, syncMerge_eq_general (S ++ T) S,
      buildLocalMap_append_fresh S T hTnodup hTid,
      values_append, List.filter_append, values_map_pairId]
  have h1 : (values (buildLocalMap S)).filter
      (fun q => !((ids S).contains q.id)) = [] := by
    rw [List.filter_eq_nil_iff]
    intro v hv
    rcases List.mem_map.mp hv with ⟨e, he, rfl⟩
    rcases buildLocalMap_entry S e he with ⟨he1, he2⟩
    intro hp
    exact ((not_contains_iff _ _).mp hp) (mem_ids S e.2 he2)
  have h2 : T.filter (fun q => !((ids S).contains q.id)) = T := by
    rw [List.filter_eq_self]
    intro t ht
    exact (not_contains_iff _ _).mpr (hTid t ht)
  rw [h1, h2]
  simp only [List.nil_append]
  congr 1
  rw [hTdef, List.map_map]
  exact List.map_congr_left (fun q _ => markQuote_idem q)

theorem synced_syncMerge (L S : List Quote) (hS : ∀ s ∈ S, s.synced = true)
    (q : Quote) (hq : q ∈ syncMerge L S) : q.synced = true := by
  rw [syncMerge_eq_general] at hq
  rcases List.mem_append.mp hq with h | h
  · exact hS q h
  · rcases List.mem_map.mp h with ⟨x, _, rfl⟩
    exact markQuote_synced x

theorem fetch_synced (resp : Option (List Post)) :
    ∀ s ∈ (fetchServerQuotes resp).1, s.synced = true := by
  cases resp with
  | none => intro s hs; simp [fetchServerQuotes] at hs
  | some posts =>
    intro s hs
    simp only [fetchServerQuotes] at hs
    rcases List.mem_map.mp hs with ⟨p, _, rfl⟩
    rfl

theorem nodup_ids_syncMerge (L S : List Quote) (hS : (ids S).Nodup) :
    (ids (syncMerge L S)).Nodup := by
  rw [syncMerge_eq_general, ids_append, ids_map_markQuote, List.nodup_append]
  refine ⟨hS, ids_filter_nodup _ _ (ids_values_buildLocalMap_nodup L), ?_⟩
  intro a haS haF
  rcases List.mem_map.mp haF with ⟨q, hq, rfl⟩
  exact (not_contains_iff _ _).mp (List.mem_filter.mp hq).2 haS

theorem filter_id_eq_single (L : List Quote) (l : Quote)
    (h : (ids L).Nodup) (hl : l ∈ L) :
    L.filter (fun q => q.id == l.id) = [l] := by
  induction L with
  | nil => simp at hl
  | cons a L ih =>
    rw [ids_cons, List.nodup_cons] at h
    rcases List.mem_cons.mp hl with rfl | hl'
    · have htail : L.filter (fun q => q.id == l.id) = [] := by
        rw [List.filter_eq_nil_iff]
        intro q hq hbeq
        have hmm := mem_ids L q hq
        rw [eq_of_beq hbeq] at hmm
        exact h.1 hmm
      simp [List.filter_cons, htail]
    · have hne : (a.id == l.id) = false := by
        rw [beq_eq_false_iff_ne]
        intro he
        exact h.1 (he ▸ mem_ids L l hl')
      rw [List.filter_cons, hne]
      simp only [Bool.false_eq_true, if_false]
      exact ih h.2 hl'

theorem filter_map_markQuote (X : List Quote) (p : Quote → Bool)
    (hp : ∀ q, p (markQuote q) = p q) :
    (X.map markQuote).filter p = (X.filter p).map markQuote := by
  induction X with
  | nil => rfl
  | cons a X ih =>
    rw [List.map_cons, List.filter_cons, List.filter_cons, hp a]
    cases hpa : p a
    · simp only [Bool.false_eq_true, if_false]
      exact ih
    · simp only [if_true, List.map_cons]
      rw [ih]

theorem syncMerge_nil_of_nodup (L : List Quote) (h : (ids L).Nodup) :
    syncMerge L [] = L.map markQuote := by
  rw [syncMerge_nodup L [] h]
  have hfull : L.filter (fun q => !((ids ([] : List Quote)).contains q.id)) = L := by
    rw [List.filter_eq_self]
    intro a _
    rfl
  rw [hfull, List.nil_append]

theorem syncQuotes_none (L : List Quote) (h : (ids L).Nodup) :
    syncQuotes L none = (L.map (fun q => { q with synced := true }), false) := by
  simp only [syncQuotes, fetchServerQuotes]
  rw [syncMerge_nil_of_nodup L h]
  rw [List.map_congr_left (fun q (_ : q ∈ L) => markQuote_eq q)]

/-- C1: remote precedence. For a local collection with distinct ids and a
fetched remote batch with distinct mapped ids, when a local quote l collides
with the mapped remote record of post p, the post-reconcile collection
contains exactly one quote with that id, namely the remote record's mapped
content, whose synced flag is true; in particular the colliding local
quote's content survives only if it coincides with the remote record. -/
theorem remote_precedence (L : List Quote) (posts : List Post) (l : Quote)
    (p : Post) (hL : (ids L).Nodup)
    (hS : (ids (fetchServerQuotes (some posts)).1).Nodup)
    (hl : l ∈ L) (hp : p ∈ posts) (hid : l.id = (mapServerPost p).id) :
    (syncMerge L (fetchServerQuotes (some posts)).1).filter
        (fun q => q.id == l.id) = [mapServerPost p] ∧
      (mapServerPost p).synced = true := by
  constructor
  · have hmem : mapServerPost p ∈ (fetchServerQuotes (some posts)).1 := by
      simp only [fetchServerQuotes]
      exact List.mem_map.mpr ⟨p, hp, rfl⟩
    rw [syncMerge_nodup L _ hL, List.filter_append]
    have hserver : ((fetchServerQuotes (some posts)).1).filter
        (fun q => q.id == l.id) = [mapServerPost p] := by
      rw [hid]
      exact filter_id_eq_single _ (mapServerPost p) hS hmem
    have hpred : ∀ q : Quote, ((markQuote q).id == l.id) = (q.id == l.id) := by
      intro q
      rw [markQuote_id]
    rw [hserver, filter_map_markQuote _ _ hpred]
    have hsurv : (L.filter
        (fun q => !((ids (fetchServerQuotes (some posts)).1).contains q.id))).filter
        (fun q => q.id == l.id) = [] := by
      rw [List.filter_eq_nil_iff]
      intro q hq hbeq
      have hqid : q.id ∉ ids (fetchServerQuotes (some posts)).1 :=
        (not_contains_iff _ _).mp (List.mem_filter.mp hq).2
      apply hqid
      rw [eq_of_beq hbeq, hid]
      exact mem_ids _ (mapServerPost p) hmem
    rw [hsurv]
    simp
  · rfl

/-- Witness for remote_precedence: local quote with id server-1 collides with
the mapped record of post 1 and is replaced by it. -/
theorem remote_precedence_witness :
    (ids [(⟨"server-1", "Old", "C", true⟩ : Quote)]).Nodup ∧
    (ids (fetchServerQuotes (some [(⟨1, "New", 2⟩ : Post)])).1).Nodup ∧
    (⟨"server-1", "Old", "C", true⟩ : Quote) ∈
      [(⟨"server-1", "Old", "C", true⟩ : Quote)] ∧
    (⟨1, "New", 2⟩ : Post) ∈ [(⟨1, "New", 2⟩ : Post)] ∧
    (⟨"server-1", "Old", "C", true⟩ : Quote).id =
      (mapServerPost ⟨1, "New", 2⟩).id ∧
    ((syncMerge [(⟨"server-1", "Old", "C", true⟩ : Quote)]
        (fetchServerQuotes (some [(⟨1, "New", 2⟩ : Post)])).1).filter
        (fun q => q.id == (⟨"server-1", "Old", "C", true⟩ : Quote).id) =
          [mapServerPost ⟨1, "New", 2⟩] ∧
      (mapServerPost ⟨1, "New", 2⟩).synced = true) :=
  ⟨by decide, by decide, by decide, by decide, by decide,
    remote_precedence _ _ _ _ (by decide) (by decide) (by decide) (by decide)
      (by decide)⟩

/-- C2: reconcile is idempotent against a static remote source: for every
local collection and every fixed response, running the sync merge twice
yields the same collection as running it once. -/
theorem reconcile_idempotent (L : List Quote) (resp : Option (List Post)) :
    (syncQuotes (syncQuotes L resp).1 resp).1 = (syncQuotes L resp).1 := by
  simp only [syncQuotes]
  exact syncMerge_idem L (fetchServerQuotes resp).1

/-- C4 counterexample: with the single local quote (id a, synced = false) and
an unreachable remote, the claim that the quote still has synced = false
after the cycle is false: the merge marks it synced = true. -/
theorem failed_fetch_pending_cex :
    ¬ (∀ q ∈ (syncQuotes [(⟨"a", "t", "c", false⟩ : Quote)] none).1,
        q.id = "a" → q.synced = false) := by decide

/-- C4 (amended): when the remote is unreachable the fetch yields the empty
list and a failure status and no fatal error, but an unsynced local quote
does not remain pending: the same cycle's simulated push marks it
synced = true, so the original unsynced record is gone from the output. -/
theorem failed_fetch_marks_synced (L : List Quote) (q : Quote)
    (hq : q ∈ L) (hsync : q.synced = false) (h : (ids L).Nodup) :
    fetchServerQuotes none = ([], false) ∧
    { q with synced := true } ∈ (syncQuotes L none).1 ∧
    q ∉ (syncQuotes L none).1 := by
  refine ⟨rfl, ?_, ?_⟩
  · have heq : (syncQuotes L none).1 = L.map (fun q => { q with synced := true }) := by
      rw [syncQuotes_none L h]
    rw [heq]
    exact List.mem_map.mpr ⟨q, hq, rfl⟩
  · intro hmem
    have hs : q.synced = true := by
      simp only [syncQuotes] at hmem
      exact synced_syncMerge L _ (fetch_synced none) q hmem
    rw [hsync] at hs
    exact Bool.false_ne_true hs

/-- Witness for failed_fetch_marks_synced at a one-quote collection. -/
theorem failed_fetch_marks_synced_witness :
    (⟨"b", "t", "c", false⟩ : Quote) ∈ [(⟨"b", "t", "c", false⟩ : Quote)] ∧
    (⟨"b", "t", "c", false⟩ : Quote).synced = false ∧
    (ids [(⟨"b", "t", "c", false⟩ : Quote)]).Nodup ∧
    (fetchServerQuotes none = ([], false) ∧
      { (⟨"b", "t", "c", false⟩ : Quote) with synced := true } ∈
        (syncQuotes [(⟨"b", "t", "c", false⟩ : Quote)] none).1 ∧
      (⟨"b", "t", "c", false⟩ : Quote) ∉
        (syncQuotes [(⟨"b", "t", "c", false⟩ : Quote)] none).1) :=
  ⟨by decide, by decide, by decide,
    failed_fetch_marks_synced _ _ (by decide) (by decide) (by decide)⟩

/-- C5: on remote fetch failure the cycle returns the local collection with
no quote added, removed or content-changed — only synced flags are set by
the (always-successful) simulated push — and the failure status is
surfaced; totality of syncQuotes models that no exception escapes. -/
theorem fetch_failure_aborts_merge (L : List Quote) (h : (ids L).Nodup) :
    syncQuotes L none = (L.map (fun q => { q with synced := true }), false) :=
  syncQuotes_none L h

/-- Witness for fetch_failure_aborts_merge at a two-quote collection. -/
theorem fetch_failure_aborts_merge_witness :
    (ids [(⟨"x", "Old", "C", false⟩ : Quote), (⟨"y", "K", "D", true⟩ : Quote)]).Nodup ∧
    syncQuotes [(⟨"x", "Old", "C", false⟩ : Quote), (⟨"y", "K", "D", true⟩ : Quote)] none =
      ([(⟨"x", "Old", "C", false⟩ : Quote), (⟨"y", "K", "D", true⟩ : Quote)].map
        (fun q => { q with synced := true }), false) :=
  ⟨by decide, fetch_failure_aborts_merge _ (by decide)⟩

/-- C6: the merged sequence lists all remote-sourced records first, in fetch
order, then the surviving local records (whose id collided with no remote
id) in their original relative order, the simulated push having set their
synced flag. -/
theorem merge_order (L S : List Quote) (h : (ids L).Nodup) :
    syncMerge L S = S ++ (L.filter (fun q => !((ids S).contains q.id))).map
      (fun q => { q with synced := true }) := by
  rw [syncMerge_nodup L S h]
  congr 1
  exact List.map_congr_left (fun q _ => markQuote_eq q)

/-- Witness for merge_order at the spec scenario: local d1 plus remote
server-1. -/
theorem merge_order_witness :
    (ids [(⟨"d1", "A", "Work", true⟩ : Quote)]).Nodup ∧
    syncMerge [(⟨"d1", "A", "Work", true⟩ : Quote)]
        [(⟨"server-1", "B", "Server-2", true⟩ : Quote)] =
      [(⟨"server-1", "B", "Server-2", true⟩ : Quote)] ++
        ([(⟨"d1", "A", "Work", true⟩ : Quote)].filter
          (fun q => !((ids [(⟨"server-1", "B", "Server-2", true⟩ : Quote)]).contains
            q.id))).map (fun q => { q with synced := true }) :=
  ⟨by decide, merge_order _ _ (by decide)⟩

/-- C7: frame property of the push/mark step: a local quote whose id collides
with no fetched remote id survives as the unique quote with its id, with
id, text and category unchanged; the only field the step may change is the
synced flag (set to true), and the step removes no surviving quote. -/
theorem push_frame (L S : List Quote) (l : Quote)
    (h : (ids L).Nodup) (hl : l ∈ L) (hid : l.id ∉ ids S) :
    (syncMerge L S).filter (fun q => q.id == l.id) =
      [{ l with synced := true }] := by
  rw [syncMerge_nodup L S h, List.filter_append]
  have hS0 : S.filter (fun q => q.id == l.id) = [] := by
    rw [List.filter_eq_nil_iff]
    intro s hs hbeq
    have hmm := mem_ids S s hs
    rw [eq_of_beq hbeq] at hmm
    exact hid hmm
  have hpred : ∀ q : Quote, ((markQuote q).id == l.id) = (q.id == l.id) := by
    intro q
    rw [markQuote_id]
  rw [hS0, List.nil_append, filter_map_markQuote _ _ hpred]
  have hlmem : l ∈ L.filter (fun q => !((ids S).contains q.id)) :=
    List.mem_filter.mpr ⟨hl, (not_contains_iff _ _).mpr hid⟩
  rw [filter_id_eq_single _ l (ids_filter_nodup L _ h) hlmem]
  simp [markQuote_eq]

/-- Witness for push_frame: the unsynced local quote d1 survives a merge with
a non-colliding remote record, content unchanged and synced set. -/
theorem push_frame_witness :
    (ids [(⟨"d1", "A", "Work", false⟩ : Quote)]).Nodup ∧
    (⟨"d1", "A", "Work", false⟩ : Quote) ∈ [(⟨"d1", "A", "Work", false⟩ : Quote)] ∧
    (⟨"d1", "A", "Work", false⟩ : Quote).id ∉
      ids [(⟨"server-1", "B", "Server-2", true⟩ : Quote)] ∧
    (syncMerge [(⟨"d1", "A", "Work", false⟩ : Quote)]
        [(⟨"server-1", "B", "Server-2", true⟩ : Quote)]).filter
        (fun q => q.id == (⟨"d1", "A", "Work", false⟩ : Quote).id) =
      [{ (⟨"d1", "A", "Work", false⟩ : Quote) with synced := true }] :=
  ⟨by decide, by decide, by decide,
    push_frame _ _ _ (by decide) (by decide) (by decide)⟩

/-- C10: after every completed sync cycle — fetch succeeded or failed —
every quote in the resulting collection has synced = true, because server
records arrive synced and the simulated push unconditionally marks every
surviving unsynced local quote. -/
theorem all_synced_after_cycle (L : List Quote) (resp : Option (List Post)) :
    ∀ q ∈ (syncQuotes L resp).1, q.synced = true := by
  intro q hq
  simp only [syncQuotes] at hq
  exact synced_syncMerge L _ (fetch_synced resp) q hq

/-- Witness for all_synced_after_cycle: the previously unsynced local quote
appears synced in the output of a successful cycle. -/
theorem all_synced_after_cycle_witness :
    (⟨"a", "t", "c", true⟩ : Quote) ∈
      (syncQuotes [(⟨"a", "t", "c", false⟩ : Quote)]
        (some [(⟨1, "New", 2⟩ : Post)])).1 ∧
    (⟨"a", "t", "c", true⟩ : Quote).synced = true :=
  ⟨by decide,
    all_synced_after_cycle [(⟨"a", "t", "c", false⟩ : Quote)]
      (some [(⟨1, "New", 2⟩ : Post)]) (⟨"a", "t", "c", true⟩ : Quote) (by decide)⟩

theorem toBase36Core_length_succ (fuel n : Nat) (acc : List Char) :
    acc.length + 1 ≤ (toBase36Core (fuel + 1) n acc).length := by
  induction fuel generalizing n acc with
  | zero =>
    simp only [toBase36Core]
    by_cases h : n / 36 = 0
    · simp [h]
    · rw [if_neg h]
      simp [toBase36Core]
  | succ fuel ih =>
    simp only [toBase36Core]
    by_cases h : n / 36 = 0
    · simp [h]
    · rw [if_neg h]
      exact le_trans (by simp) (ih (n / 36) (base36Digit (n % 36) :: acc))

theorem toBase36_ne_empty (n : Nat) : toBase36 n ≠ "" := by
  intro h
  have h2 : toBase36Core (n + 1) n [] = [] := by
    have h3 := congrArg String.data h
    simpa [toBase36] using h3
  have h4 := toBase36Core_length_succ n n []
  rw [h2] at h4
  simp at h4

theorem generateUniqueId_ne_empty (now : Nat) (rand : String) :
    generateUniqueId now rand ≠ "" := by
  intro h
  have hd := congrArg String.data h
  rw [generateUniqueId, String.data_append] at hd
  have h1 : (toBase36 now).data = [] := (List.append_eq_nil.mp (by simpa using hd)).1
  exact toBase36_ne_empty now (String.ext h1)

theorem importQuote_id_ne_empty (gen : String) (r : RawQuote)
    (hgen : gen ≠ "") : (importQuote gen r).id ≠ "" := by
  cases hid : r.id with
  | none => simpa [importQuote, hid] using hgen
  | some s =>
    by_cases hs : s = ""
    · simpa [importQuote, hid, hs] using hgen
    · simpa [importQuote, hid, hs] using hs

/-- C8: importing a list of records that carry no id appends, for each
record, one quote whose id is the corresponding generated id — a non-empty
string, as the second conjunct checks for the whole imported batch — with
the record's text and category and synced = false. -/
theorem import_defaults (quotes : List Quote) (records : List RawQuote)
    (now : Nat → Nat) (rand : Nat → String)
    (h : ∀ r ∈ records, r.id = none) :
    importFromJsonFile quotes (ImportData.array records)
        (fun i => generateUniqueId (now i) (rand i)) =
      quotes ++ records.enum.map (fun e =>
        { id := generateUniqueId (now e.1) (rand e.1)
        , text := e.2.text
        , category := e.2.category
        , synced := false }) ∧
    (importNewQuotes records (fun i => generateUniqueId (now i) (rand i))).all
      (fun q => q.id != "") = true := by
  constructor
  · simp only [importFromJsonFile]
    congr 1
    unfold importNewQuotes
    apply List.map_congr_left
    intro e he
    have h2 : e.2 ∈ records := List.snd_mem_of_mem_enum he
    simp [importQuote, h e.2 h2]
  · rw [List.all_eq_true]
    intro q hq
    rcases List.mem_map.mp hq with ⟨e, _, rfl⟩
    exact bne_iff_ne.mpr
      (importQuote_id_ne_empty _ e.2 (generateUniqueId_ne_empty (now e.1) (rand e.1)))

/-- Witness for import_defaults: importing an id-less record into the empty
collection yields exactly one quote with a generated non-empty id. -/
theorem import_defaults_witness :
    (∀ r ∈ [(⟨none, "Q", "Cat"⟩ : RawQuote)], r.id = none) ∧
    (importFromJsonFile [] (ImportData.array [(⟨none, "Q", "Cat"⟩ : RawQuote)])
        (fun i => generateUniqueId 0 "") =
      [] ++ ([(⟨none, "Q", "Cat"⟩ : RawQuote)]).enum.map (fun e =>
        { id := generateUniqueId 0 ""
        , text := e.2.text
        , category := e.2.category
        , synced := false }) ∧
    (importNewQuotes [(⟨none, "Q", "Cat"⟩ : RawQuote)]
        (fun i => generateUniqueId 0 "")).all (fun q => q.id != "") = true) :=
  ⟨by decide, import_defaults [] _ (fun _ => 0) (fun _ => "") (by decide)⟩

/-- C9: when the imported data parses but is not a list, importFromJsonFile
performs no mutation: the in-memory collection and the persisted
collection are unchanged, and the failure is reported (status false),
not raised; the function is total. -/
theorem malformed_import_noop (st : AppState) (gen : Nat → String) :
    (importFromJsonFileApp st ImportData.notArray gen).1.quotes = st.quotes ∧
    (importFromJsonFileApp st ImportData.notArray gen).1.storedQuotes =
      st.storedQuotes ∧
    (importFromJsonFileApp st ImportData.notArray gen).2 = false :=
  ⟨rfl, rfl, rfl⟩

/-- C3 counterexample: importing a record that carries the already-present
id d1 produces two quotes with id d1, so uniqueness is not an invariant
of the import operation. -/
theorem import_duplicate_id_cex :
    ¬ (ids (importFromJsonFile [(⟨"d1", "A", "Work", true⟩ : Quote)]
        (ImportData.array [(⟨some "d1", "B", "C"⟩ : RawQuote)])
        (fun _ => "g0"))).Nodup := by decide

theorem nodup_ids_addQuote (quotes : List Quote) (t c g : String)
    (h : (ids quotes).Nodup) (hg : g ∉ ids quotes) :
    (ids (addQuote quotes t c g)).Nodup := by
  unfold addQuote
  by_cases hv : trimValue t ≠ "" ∧ trimValue c ≠ ""
  · rw [if_pos hv, ids_append, List.nodup_append]
    refine ⟨h, by simp [ids_cons, ids_nil], ?_⟩
    intro a ha hb
    rw [ids_cons, ids_nil] at hb
    rcases List.mem_singleton.mp hb with rfl
    exact hg ha
  · rw [if_neg hv]
    exact h

theorem nodup_ids_import (quotes : List Quote) (data : ImportData)
    (gen : Nat → String) (h : (ids quotes).Nodup)
    (hok : opOk quotes (Op.importOp data gen) = true) :
    (ids (importFromJsonFile quotes data gen)).Nodup := by
  cases data with
  | parseError => exact h
  | notArray => exact h
  | array recs =>
    simp only [opOk, Bool.and_eq_true] at hok
    obtain ⟨h1, h2⟩ := hok
    simp only [importFromJsonFile]
    rw [ids_append, List.nodup_append]
    refine ⟨h, (allDistinct_iff _).mp h1, ?_⟩
    intro a ha hb
    have h3 := (List.all_eq_true.mp h2) a hb
    exact (not_contains_iff _ _).mp h3 ha

theorem nodup_ids_sync (quotes : List Quote) (resp : Option (List Post))
    (hok : opOk quotes (Op.sync resp) = true) :
    (ids (syncQuotes quotes resp).1).Nodup := by
  simp only [opOk] at hok
  simp only [syncQuotes]
  exact nodup_ids_syncMerge quotes _ ((allDistinct_iff _).mp hok)

/-- C3 (amended): id uniqueness is an invariant of every sequence of
add, import and reconcile operations, each being well-formed for
the current collection — the generated id of an add is fresh, the ids of
an imported batch (after defaulting) are pairwise distinct and fresh, and
the ids of a fetched server batch are pairwise distinct. An import whose
records carry ids that already exist in the collection does produce
duplicates (see the counterexample). -/
theorem id_unique_invariant (qs : List Quote) (ops : List Op)
    (h0 : (ids qs).Nodup) (h : okTrace qs ops = true) :
    (ids (ops.foldl applyOp qs)).Nodup := by
  induction ops generalizing qs with
  | nil => exact h0
  | cons op ops ih =>
    rw [okTrace, Bool.and_eq_true] at h
    rw [List.foldl_cons]
    apply ih (applyOp qs op) ?_ h.2
    cases op with
    | add t c g =>
      simp only [applyOp]
      refine nodup_ids_addQuote qs t c g h0 ((not_contains_iff _ _).mp ?_)
      simpa [opOk] using h.1
    | importOp data gen => exact nodup_ids_import qs data gen h0 h.1
    | sync resp => exact nodup_ids_sync qs resp h.1

/-- Witness for id_unique_invariant on a three-operation trace: an add,
an import of an id-less record, and a successful sync. -/
theorem id_unique_invariant_witness :
    (ids ([] : List Quote)).Nodup ∧
    okTrace [] [Op.add "hello" "cat" "gid1",
      Op.importOp (ImportData.array [(⟨none, "x", "y"⟩ : RawQuote)])
        (fun _ => "gid2"),
      Op.sync (some [(⟨1, "T", 2⟩ : Post)])] = true ∧
    (ids ([Op.add "hello" "cat" "gid1",
      Op.importOp (ImportData.array [(⟨none, "x", "y"⟩ : RawQuote)])
        (fun _ => "gid2"),
      Op.sync (some [(⟨1, "T", 2⟩ : Post)])].foldl applyOp [])).Nodup :=
  ⟨by decide, by decide, id_unique_invariant _ _ (by decide) (by decide)⟩

end QuoteApp
